import Mathlib

/-!
Verification of the document-renderer core of the Beauty-by-BiE brand
architect application (`app.py`).

Python strings are modelled as `List Char`.  The three renderer components
are embedded from the source:

* `sanitizeText`   — `_sanitize_text` (character substitution table followed
  by a latin-1 `errors="replace"` round trip);
* `pdfClassify` / `generatePdfTexts` — the per-line dispatch of
  `generate_pdf` (the paginated backend);
* `lineHtml` / `mdToSafeHtml` and the classification it induces
  (`inlineClassify`) — `_markdown_to_safe_html` (the inline-markup backend).
-/

/-- Python whitespace (`str.strip`, regex `\s` on text patterns): ASCII
whitespace controls, NEL, NBSP and the Unicode space separators. -/
def pyIsSpace (c : Char) : Bool :=
  let n := c.toNat
  n = 32 || n = 9 || n = 10 || n = 13 || n = 11 || n = 12 ||
  (28 ≤ n && n ≤ 31) || n = 0x85 || n = 0xa0 || n = 0x1680 ||
  (0x2000 ≤ n && n ≤ 0x200a) || n = 0x2028 || n = 0x2029 ||
  n = 0x202f || n = 0x205f || n = 0x3000

/-- Remove trailing characters satisfying `p` (the right half of
Python `str.strip`). -/
def dropTrail (p : Char → Bool) (l : List Char) : List Char :=
  (l.reverse.dropWhile p).reverse

/-- Python `str.strip()`: remove leading and trailing whitespace. -/
def pyStrip (l : List Char) : List Char :=
  dropTrail pyIsSpace (l.dropWhile pyIsSpace)

/-- Python `str.startswith` on char lists. -/
def startsWith : List Char → List Char → Bool
  | [], _ => true
  | _ :: _, [] => false
  | p :: ps, c :: cs => p = c && startsWith ps cs

/-- Python `str.endswith` on char lists. -/
def endsWith (suf l : List Char) : Bool :=
  startsWith suf.reverse l.reverse

/-- The substitution table of `_sanitize_text`, in source order. -/
def REPLACEMENTS : List (Char × List Char) :=
  [ ('—', "--".toList),
    ('–', "-".toList),
    ('‘', "\x27".toList),
    ('’', "\x27".toList),
    ('“', "\"".toList),
    ('”', "\"".toList),
    ('…', "...".toList),
    ('•', "*".toList),
    (' ', " ".toList),
    ('‐', "-".toList),
    ('‑', "-".toList),
    ('‒', "-".toList),
    ('·', "*".toList),
    ('●', "*".toList),
    ('○', "o".toList),
    ('‣', ">".toList),
    ('é', "e".toList),
    ('è', "e".toList),
    ('à', "a".toList),
    ('ü', "u".toList),
    ('″', "\"".toList),
    ('′', "\x27".toList) ]

/-- Python `text.replace(k, v)` for a one-character pattern `k`. -/
def replaceChar (k : Char) (v : List Char) (l : List Char) : List Char :=
  l.flatMap (fun c => if c = k then v else [c])

/-- The `for char, repl in replacements.items(): text = text.replace(...)`
loop of `_sanitize_text`. -/
def applyReplacements (l : List Char) : List Char :=
  REPLACEMENTS.foldl (fun acc kv => replaceChar kv.1 kv.2 acc) l

/-- The catch-all `text.encode("latin-1", errors="replace").decode("latin-1")`: every
character whose code point exceeds 255 becomes the placeholder `?`. -/
def latin1Replace (l : List Char) : List Char :=
  l.map (fun c => if c.toNat ≤ 255 then c else '?')

/-- The function `_sanitize_text`. -/
def sanitizeText (l : List Char) : List Char :=
  latin1Replace (applyReplacements l)

example : sanitizeText "—".toList = "--".toList := by decide

example : startsWith "## ".toList "### Title".toList = false := by decide

example : pyStrip "  ab  ".toList = "ab".toList := by decide

/-! ### Lemmas about `_sanitize_text` -/

lemma mem_replaceChar {c k : Char} {v l : List Char}
    (h : c ∈ replaceChar k v l) : c ∈ v ∨ (c ∈ l ∧ c ≠ k) := by
  rcases List.mem_flatMap.mp h with ⟨a, ha, hc⟩
  by_cases hak : a = k
  · subst hak
    simp at hc
    exact Or.inl hc
  · simp [hak] at hc
    subst hc
    exact Or.inr ⟨ha, hak⟩

lemma replaceChar_of_not_mem {k : Char} {v l : List Char}
    (h : k ∉ l) : replaceChar k v l = l := by
  induction l with
  | nil => rfl
  | cons a t ih =>
    have hak : a ≠ k := fun he => h (he ▸ List.mem_cons_self a t)
    have ht : k ∉ t := fun hm => h (List.mem_cons_of_mem _ hm)
    simp [replaceChar] at ih ⊢
    simp [hak, ih ht]

lemma mem_foldl_repl (rs : List (Char × List Char)) (l : List Char) (c : Char)
    (h : c ∈ rs.foldl (fun acc kv => replaceChar kv.1 kv.2 acc) l) :
    (∃ kv ∈ rs, c ∈ kv.2) ∨ (c ∈ l ∧ ∀ kv ∈ rs, c ≠ kv.1) := by
  induction rs generalizing l with
  | nil => exact Or.inr ⟨h, by simp⟩
  | cons kv rs ih =>
    rcases ih (replaceChar kv.1 kv.2 l) h with h1 | ⟨h2, h3⟩
    · rcases h1 with ⟨kv', hm, hc⟩
      exact Or.inl ⟨kv', List.mem_cons_of_mem _ hm, hc⟩
    · rcases mem_replaceChar h2 with hv | ⟨hl, hne⟩
      · exact Or.inl ⟨kv, List.mem_cons_self _ _, hv⟩
      · refine Or.inr ⟨hl, ?_⟩
        intro kv' hkv'
        rcases List.mem_cons.mp hkv' with he | hm
        · exact he ▸ hne
        · exact h3 kv' hm

lemma foldl_repl_of_no_keys (rs : List (Char × List Char)) (l : List Char)
    (h : ∀ kv ∈ rs, kv.1 ∉ l) :
    rs.foldl (fun acc kv => replaceChar kv.1 kv.2 acc) l = l := by
  induction rs with
  | nil => rfl
  | cons kv rs ih =>
    have h1 : replaceChar kv.1 kv.2 l = l :=
      replaceChar_of_not_mem (h kv (List.mem_cons_self _ _))
    simp only [List.foldl_cons, h1]
    exact ih (fun kv' hm => h kv' (List.mem_cons_of_mem _ hm))

lemma mem_latin1 {c : Char} {l : List Char}
    (h : c ∈ latin1Replace l) : c.toNat ≤ 255 := by
  rcases List.mem_map.mp h with ⟨a, _, hc⟩
  by_cases hle : a.toNat ≤ 255
  · simp [hle] at hc
    subst hc
    exact hle
  · simp [hle] at hc
    subst hc
    decide

lemma latin1_of_le {l : List Char}
    (h : ∀ c ∈ l, c.toNat ≤ 255) : latin1Replace l = l := by
  unfold latin1Replace
  induction l with
  | nil => rfl
  | cons a t ih =>
    have ha : a.toNat ≤ 255 := h a (List.mem_cons_self a t)
    have ht : ∀ c ∈ t, c.toNat ≤ 255 := fun c hc => h c (List.mem_cons_of_mem _ hc)
    simp [ha, ih ht]

/-- All replacement strings are plain latin-1 text that mentions no key
of the table. -/
lemma repl_values_ok :
    ∀ kv ∈ REPLACEMENTS, ∀ c ∈ kv.2,
      c.toNat ≤ 255 ∧ ∀ kv2 ∈ REPLACEMENTS, c ≠ kv2.1 := by decide

lemma sanitize_le255 {c : Char} {l : List Char}
    (h : c ∈ sanitizeText l) : c.toNat ≤ 255 :=
  mem_latin1 h

lemma sanitize_no_keys {c : Char} {l : List Char}
    (h : c ∈ sanitizeText l) : ∀ kv ∈ REPLACEMENTS, c ≠ kv.1 := by
  rcases List.mem_map.mp h with ⟨a, ha, hc⟩
  by_cases hle : a.toNat ≤ 255
  · simp [hle] at hc
    subst hc
    rcases mem_foldl_repl REPLACEMENTS l a ha with ⟨kv, hkv, hv⟩ | ⟨_, hk⟩
    · exact (repl_values_ok kv hkv a hv).2
    · exact hk
  · simp [hle] at hc
    subst hc
    decide

/-- C4: `_sanitize_text` is total into the latin-1 alphabet: every character
of its output has code point at most 255; the em dash U+2014 maps to `--`,
the right single curly quote U+2019 maps to the straight quote; and any
character that is still not latin-1-representable after the substitution
table is replaced by the visible placeholder `?` (neither dropped nor an
error). -/
theorem sanitize_total_latin1 (s : List Char) :
    (∀ c ∈ sanitizeText s, c.toNat ≤ 255) ∧
    sanitizeText "—".toList = "--".toList ∧
    sanitizeText "’".toList = "\x27".toList ∧
    (∀ c : Char, 255 < c.toNat → (∀ kv ∈ REPLACEMENTS, c ≠ kv.1) →
      sanitizeText [c] = ['?']) := by
  refine ⟨fun c hc => sanitize_le255 hc, by decide, by decide, ?_⟩
  intro c hgt hkeys
  have h1 : applyReplacements [c] = [c] := by
    apply foldl_repl_of_no_keys
    intro kv hkv hm
    rcases List.mem_singleton.mp hm with he
    exact (hkeys kv hkv) he.symm
  have h2 : ¬ c.toNat ≤ 255 := by omega
  simp [sanitizeText, h1, latin1Replace, h2]

theorem sanitize_total_latin1_witness :
    (255 < '€'.toNat ∧ (∀ kv ∈ REPLACEMENTS, '€' ≠ kv.1)) ∧
    sanitizeText ['€'] = ['?'] :=
  ⟨⟨by decide, by decide⟩,
    (sanitize_total_latin1 []).2.2.2 '€' (by decide) (by decide)⟩

/-- C9: `_sanitize_text` is idempotent — sanitizing twice equals sanitizing
once, because every replacement string is plain ASCII containing no table
key, and the catch-all placeholder `?` is likewise a fixed point. -/
theorem sanitize_idempotent (s : List Char) :
    sanitizeText (sanitizeText s) = sanitizeText s := by
  have h1 : applyReplacements (sanitizeText s) = sanitizeText s :=
    foldl_repl_of_no_keys _ _
      (fun kv hkv hm => sanitize_no_keys hm kv hkv rfl)
  have h2 : latin1Replace (sanitizeText s) = sanitizeText s :=
    latin1_of_le (fun c hc => sanitize_le255 hc)
  rw [sanitizeText, h1, h2]

/-! ### The line classifier of the paginated backend (`generate_pdf`) -/

/-- The set stripped by `lstrip("# ")` in the heading branches. -/
def hashSpace (c : Char) : Bool := c = '#' || c = ' '

/-- The set stripped by `lstrip("-*• ")` in the bullet branch. -/
def bulletMarkChar (c : Char) : Bool := c = '-' || c = '*' || c = '•' || c = ' '

def isAsciiDigit (c : Char) : Bool := 48 ≤ c.toNat && c.toNat ≤ 57

/-- The numbered-list test `re.match(r"^\d+[\.\)]\s", stripped)`: one or
more digits, then `.` or `)`, then a whitespace character. -/
def numberedMatch (l : List Char) : Bool :=
  let ds := l.takeWhile isAsciiDigit
  !ds.isEmpty &&
  match l.drop ds.length with
  | p :: s :: _ => (p = '.' || p = ')') && pyIsSpace s
  | _ => false

/-- The structural kinds a line can be given by the renderer backends. -/
inductive Kind where
  | h1 | h2 | h3 | boldLabel | bulletItem | numberedItem | blank | paragraph
deriving DecidableEq, Repr

/-- The per-line dispatch of `generate_pdf`: which branch a line takes and
the exact text handed to the layout call of that branch (empty for blank
lines, which only emit vertical space).  Branches appear in source order:
blank, `"# "`, `"## "`, `"### "`, bold label, bullet, numbered, paragraph. -/
def pdfClassify (line : List Char) : Kind × List Char :=
  if pyStrip line = [] then (Kind.blank, [])
  else if startsWith "# ".toList (pyStrip line) then
    (Kind.h1, pyStrip ((pyStrip line).dropWhile hashSpace))
  else if startsWith "## ".toList (pyStrip line) then
    (Kind.h2, pyStrip ((pyStrip line).dropWhile hashSpace))
  else if startsWith "### ".toList (pyStrip line) then
    (Kind.h3, pyStrip ((pyStrip line).dropWhile hashSpace))
  else if startsWith "**".toList (pyStrip line) && endsWith "**".toList (pyStrip line) then
    (Kind.boldLabel,
      pyStrip (dropTrail (fun c => c = '*') ((pyStrip line).dropWhile (fun c => c = '*'))))
  else if startsWith "- ".toList (pyStrip line) || startsWith "* ".toList (pyStrip line)
      || startsWith "• ".toList (pyStrip line) then
    (Kind.bulletItem, ' ' :: ' ' :: pyStrip ((pyStrip line).dropWhile bulletMarkChar))
  else if numberedMatch (pyStrip line) then
    (Kind.numberedItem, ' ' :: ' ' :: pyStrip line)
  else (Kind.paragraph, pyStrip line)

/-! ### The inline-markup backend (`_markdown_to_safe_html`) -/

/-- One character of `html.escape(text)` (`quote=True`). -/
def escapeChar (c : Char) : List Char :=
  if c = '&' then "&amp;".toList
  else if c = '<' then "&lt;".toList
  else if c = '>' then "&gt;".toList
  else if c = '"' then "&quot;".toList
  else if c = '\x27' then "&#x27;".toList
  else [c]

/-- Python `html.escape(text)` (`quote=True`).  The sequential `str.replace`
passes of the library function are equivalent to this character map: the
ampersand pass runs first and no later pass touches a character occurring
in an inserted entity. -/
def escape (l : List Char) : List Char := l.flatMap escapeChar

/-- Python `str.split("\n")` on char lists. -/
def splitNl : List Char → List (List Char)
  | [] => [[]]
  | c :: t =>
    if c = '\n' then [] :: splitNl t
    else
      match splitNl t with
      | [] => [[c]]
      | h :: r => (c :: h) :: r

/-- Python `"\n".join(out)` on char lists. -/
def joinNl : List (List Char) → List Char
  | [] => []
  | [x] => x
  | x :: xs => x ++ '\n' :: joinNl xs

def headIsStar : List Char → Bool
  | c :: _ => c = '*'
  | [] => false

def strongOpen : List Char := "<strong>".toList
def strongClose : List Char := "</strong>".toList
def emOpen : List Char := "<em>".toList
def emClose : List Char := "</em>".toList
def brTag : List Char := "<br>".toList
def pOpen : List Char := "<p style=\x27margin:0.3rem 0;\x27>".toList
def pClose : List Char := "</p>".toList

/-- Scan for the first closing `**` of the bold pattern
`\*\*(.+?)\*\*`: split `l` as `a ++ '*' :: '*' :: b` at the leftmost
possible point.  The lazy `(.+?)` makes the leftmost closing pair the one
the regex engine uses. -/
def findClose : List Char → Option (List Char × List Char)
  | [] => none
  | c :: t =>
    if c = '*' && headIsStar t then some ([], t.tail)
    else (findClose t).map (fun q => (c :: q.1, q.2))

/-- One scan step of `re.sub(r"\*\*(.+?)\*\*", r"<strong>\1</strong>", s)`,
with explicit fuel.  Each step consumes at least one character of the
remaining input, so fuel `s.length` (as used by `boldSub`) always reaches
the end of the scan; fuel 0 is never hit then.  A match needs an opening
`**`, a non-empty lazy inner run (which may not contain a newline, since
`.` does not match `\n`), and the nearest closing `**`; on failure the
scan advances one character, exactly like the regex engine. -/
def boldSubF : Nat → List Char → List Char
  | 0, l => l
  | _ + 1, [] => []
  | n + 1, c :: t =>
    if c = '*' && headIsStar t then
      match t.tail with
      | [] => '*' :: boldSubF n t
      | d :: t2 =>
        match findClose t2 with
        | some (a, b) =>
          if '\n' ∈ d :: a then '*' :: boldSubF n t
          else strongOpen ++ (d :: a) ++ strongClose ++ boldSubF n b
        | none => '*' :: boldSubF n t
    else c :: boldSubF n t

/-- The bold substitution pass of the paragraph branch. -/
def boldSub (l : List Char) : List Char := boldSubF l.length l

/-- Scan for the closing `*` of the italic pattern
`(?<!\*)\*(?!\*)(.+?)(?<!\*)\*(?!\*)`: split `l` as `a ++ '*' :: b` at the
leftmost `*` whose previous character (tracked in `p`) and next character
are both not `*`. -/
def findCloseI : Char → List Char → Option (List Char × List Char)
  | _, [] => none
  | p, c :: t =>
    if c = '*' && !(p = '*' || headIsStar t) then some ([], t)
    else (findCloseI c t).map (fun q => (c :: q.1, q.2))

/-- One scan step of
`re.sub(r"(?<!\*)\*(?!\*)(.+?)(?<!\*)\*(?!\*)", r"<em>\1</em>", s)`, with
explicit fuel (as in `boldSubF`, fuel = input length always suffices) and
the character before the scan position in `p` (the lookbehinds inspect the
original string, so after a match or a failed opening the previous
character is the consumed `*`). -/
def italicSubAuxF : Nat → Option Char → List Char → List Char
  | 0, _, l => l
  | _ + 1, _, [] => []
  | n + 1, p, c :: t =>
    if c = '*' then
      if p = some '*' || headIsStar t then '*' :: italicSubAuxF n (some '*') t
      else
        match t with
        | [] => ['*']
        | d :: t2 =>
          match findCloseI d t2 with
          | some (a, b) =>
            if '\n' ∈ d :: a then '*' :: italicSubAuxF n (some '*') t
            else emOpen ++ (d :: a) ++ emClose ++ italicSubAuxF n (some '*') b
          | none => '*' :: italicSubAuxF n (some '*') t
    else c :: italicSubAuxF n (some c) t

/-- The italic substitution pass, at the start of the string. -/
def italicSub (l : List Char) : List Char := italicSubAuxF l.length none l

/-- The two order-sensitive substitution passes of the paragraph branch of
`_markdown_to_safe_html`: bold first, then italic. -/
def paraSub (s : List Char) : List Char := italicSub (boldSub s)

/-- The bullet test `re.match(r"^[-*]\s", stripped)` of the paragraph
branch, applied after the two substitution passes. -/
def bulletMatch : List Char → Bool
  | c :: s :: _ => (c = '-' || c = '*') && pyIsSpace s
  | _ => false

/-- The per-line emission of `_markdown_to_safe_html` (its loop body). -/
def lineHtml (line : List Char) : List Char :=
  if pyStrip line = [] then brTag
  else if startsWith "### ".toList (pyStrip line) then
    "<h3>".toList ++ (pyStrip line).drop 4 ++ "</h3>".toList
  else if startsWith "## ".toList (pyStrip line) then
    "<h2>".toList ++ (pyStrip line).drop 3 ++ "</h2>".toList
  else if startsWith "# ".toList (pyStrip line) then
    "<h1>".toList ++ (pyStrip line).drop 2 ++ "</h1>".toList
  else
    pOpen ++
      (if bulletMatch (paraSub (pyStrip line)) then
        "&bull;&nbsp;".toList ++ (paraSub (pyStrip line)).drop 2
      else paraSub (pyStrip line)) ++ pClose

/-- The function `_markdown_to_safe_html`: escape, split on newlines, render each line,
join with newlines. -/
def mdToSafeHtml (t : List Char) : List Char :=
  joinNl ((splitNl (escape t)).map lineHtml)

/-- The structural classification induced by the per-line dispatch of
`_markdown_to_safe_html`: the branch a line takes and the text placed
inside the emitted element (after the substitution passes, for the
paragraph branch). -/
def inlineClassify (line : List Char) : Kind × List Char :=
  if pyStrip line = [] then (Kind.blank, [])
  else if startsWith "### ".toList (pyStrip line) then (Kind.h3, (pyStrip line).drop 4)
  else if startsWith "## ".toList (pyStrip line) then (Kind.h2, (pyStrip line).drop 3)
  else if startsWith "# ".toList (pyStrip line) then (Kind.h1, (pyStrip line).drop 2)
  else if bulletMatch (paraSub (pyStrip line)) then
    (Kind.bulletItem, (paraSub (pyStrip line)).drop 2)
  else (Kind.paragraph, paraSub (pyStrip line))

/-- All strings handed to a text-layout primitive (`cell`/`multi_cell`) by
`generate_pdf`: the sanitized title line, then the per-line payloads of the
sanitized body (blank lines emit no text). -/
def generatePdfTexts (strategy concept : List Char) : List (List Char) :=
  sanitizeText ("Launch Strategy: ".toList ++ concept) ::
  (splitNl (sanitizeText strategy)).filterMap (fun line =>
    if (pdfClassify line).1 = Kind.blank then none else some (pdfClassify line).2)

/-- The markup tokens `_markdown_to_safe_html` itself emits. -/
def TAGS : List (List Char) :=
  [ "<h1>".toList, "</h1>".toList, "<h2>".toList, "</h2>".toList,
    "<h3>".toList, "</h3>".toList, strongOpen, strongClose,
    emOpen, emClose, brTag, pOpen, pClose ]

/-- Every `<` in the list begins an occurrence of one of the renderer's own
markup tokens. -/
def safeB : List Char → Bool
  | [] => true
  | c :: t =>
    (if c = '<' then TAGS.any (fun tg => startsWith tg (c :: t)) else true) && safeB t

example : boldSub "**X**".toList = "<strong>X</strong>".toList := by decide

example : paraSub "a *i* **b**".toList = "a <em>i</em> <strong>b</strong>".toList := by
  decide

example : inlineClassify "**X**".toList = (Kind.paragraph, "<strong>X</strong>".toList) := by
  decide

example : pdfClassify "**X**".toList = (Kind.boldLabel, "X".toList) := by decide

example : pdfClassify "- Hook: mystery teaser".toList
    = (Kind.bulletItem, "  Hook: mystery teaser".toList) := by decide

example : pdfClassify "1. Competitive snapshot".toList
    = (Kind.numberedItem, "  1. Competitive snapshot".toList) := by decide

example : pdfClassify "**".toList = (Kind.boldLabel, []) := by decide

example : mdToSafeHtml "# T\n\n<i".toList
    = ("<h1>T</h1>\n<br>\n" ++ "<p style=\x27margin:0.3rem 0;\x27>&lt;i</p>").toList := by
  decide

/-! ### Prefix helpers -/

lemma startsWith_iff (p : List Char) : ∀ l, startsWith p l = true ↔ ∃ r, l = p ++ r := by
  induction p with
  | nil =>
    intro l
    simp [startsWith]
  | cons a p ih =>
    intro l
    cases l with
    | nil => simp [startsWith]
    | cons c t =>
      simp only [startsWith, Bool.and_eq_true, decide_eq_true_eq, List.cons_append]
      constructor
      · rintro ⟨rfl, h⟩
        rcases (ih t).mp h with ⟨r, rfl⟩
        exact ⟨r, rfl⟩
      · rintro ⟨r, he⟩
        injection he with h1 h2
        exact ⟨h1.symm, (ih t).mpr ⟨r, h2⟩⟩

lemma startsWith_self_append (p r : List Char) : startsWith p (p ++ r) = true :=
  (startsWith_iff p (p ++ r)).mpr ⟨r, rfl⟩

/-! ### Branch lemmas for `pdfClassify` -/

lemma pdfClassify_bold {line : List Char}
    (h1 : startsWith "**".toList (pyStrip line) = true)
    (h2 : endsWith "**".toList (pyStrip line) = true) :
    pdfClassify line = (Kind.boldLabel,
      pyStrip (dropTrail (fun c => c = '*')
        ((pyStrip line).dropWhile (fun c => c = '*')))) := by
  rcases (startsWith_iff _ _).mp h1 with ⟨r, hr⟩
  have hr' : pyStrip line = '*' :: '*' :: r := hr
  unfold pdfClassify
  rw [hr'] at h2 ⊢
  simp [startsWith] at h2 ⊢
  simp [h2]

lemma pdfClassify_boldLabel_iff (line : List Char) :
    (pdfClassify line).1 = Kind.boldLabel ↔
      (startsWith "**".toList (pyStrip line) = true ∧
       endsWith "**".toList (pyStrip line) = true) := by
  constructor
  · intro h
    unfold pdfClassify at h
    split_ifs at h with c1 c2 c3 c4 c5 c6 c7 <;> simp_all
  · rintro ⟨h1, h2⟩
    rw [pdfClassify_bold h1 h2]

/-- C6 counterexample: the bare two-character line `**` both starts and ends
with `**`, and `generate_pdf` classifies it bold-label (with empty payload),
contrary to the claim that `**` is excluded. -/
theorem bold_label_bare_marker_counterexample :
    pdfClassify "**".toList = (Kind.boldLabel, []) ∧
    startsWith "**".toList (pyStrip "**".toList) = true ∧
    endsWith "**".toList (pyStrip "**".toList) = true := by decide

/-- C6 (amended): a trimmed line is classified bold-label iff it starts
with `**` and ends with `**` — including the bare string `**`, which gets
the empty payload; the payload is the text with leading and trailing `*`
stripped and the result whitespace-stripped; `**Positioning**` yields
payload `Positioning`. -/
theorem bold_label_rule (line : List Char) :
    ((pdfClassify line).1 = Kind.boldLabel ↔
      (startsWith "**".toList (pyStrip line) = true ∧
       endsWith "**".toList (pyStrip line) = true)) ∧
    (startsWith "**".toList (pyStrip line) = true →
      endsWith "**".toList (pyStrip line) = true →
      (pdfClassify line).2 =
        pyStrip (dropTrail (fun c => c = '*')
          ((pyStrip line).dropWhile (fun c => c = '*')))) ∧
    pdfClassify "**Positioning**".toList = (Kind.boldLabel, "Positioning".toList) :=
  ⟨pdfClassify_boldLabel_iff line,
   fun h1 h2 => by rw [pdfClassify_bold h1 h2],
   by decide⟩

theorem bold_label_rule_witness :
    (pdfClassify "**Positioning**".toList).1 = Kind.boldLabel ∧
    (pdfClassify "**Positioning**".toList).2 =
      pyStrip (dropTrail (fun c => c = '*')
        ((pyStrip "**Positioning**".toList).dropWhile (fun c => c = '*'))) :=
  ⟨(bold_label_rule "**Positioning**".toList).1.mpr ⟨by decide, by decide⟩,
   (bold_label_rule "**Positioning**".toList).2.1 (by decide) (by decide)⟩

lemma pdfClassify_bullet {line : List Char}
    (h : startsWith "- ".toList (pyStrip line) = true ∨
         startsWith "* ".toList (pyStrip line) = true ∨
         startsWith "• ".toList (pyStrip line) = true) :
    pdfClassify line =
      (Kind.bulletItem, ' ' :: ' ' :: pyStrip ((pyStrip line).dropWhile bulletMarkChar)) := by
  rcases h with h | h | h <;>
  · rcases (startsWith_iff _ _).mp h with ⟨r, hr⟩
    first
    | (have hr' : pyStrip line = '-' :: ' ' :: r := hr
       unfold pdfClassify
       rw [hr']
       simp [startsWith])
    | (have hr' : pyStrip line = '*' :: ' ' :: r := hr
       unfold pdfClassify
       rw [hr']
       simp [startsWith])
    | (have hr' : pyStrip line = '•' :: ' ' :: r := hr
       unfold pdfClassify
       rw [hr']
       simp [startsWith])

lemma numberedMatch_head {d : Char} {r : List Char}
    (h : numberedMatch (d :: r) = true) : isAsciiDigit d = true := by
  by_contra hd
  simp only [Bool.not_eq_true] at hd
  simp [numberedMatch, hd] at h

lemma pdfClassify_numbered {line : List Char}
    (h : numberedMatch (pyStrip line) = true) :
    pdfClassify line = (Kind.numberedItem, ' ' :: ' ' :: pyStrip line) := by
  cases hs : pyStrip line with
  | nil =>
    rw [hs] at h
    simp [numberedMatch] at h
  | cons d r =>
    rw [hs] at h
    have hd : isAsciiDigit d = true := numberedMatch_head h
    have h1 : ¬ ('#' = d) := fun he => by simp [← he, isAsciiDigit] at hd
    have h2 : ¬ ('*' = d) := fun he => by simp [← he, isAsciiDigit] at hd
    have h3 : ¬ ('-' = d) := fun he => by simp [← he, isAsciiDigit] at hd
    have h4 : ¬ ('•' = d) := fun he => by simp [← he, isAsciiDigit] at hd
    unfold pdfClassify
    rw [hs]
    simp [startsWith, h1, h2, h3, h4, h]

/-- C7 counterexample: the line `- - nested` is a bullet item, but its
payload is two spaces plus `nested` — the `lstrip("-*• ")` strips the inner
`- ` as well — not two spaces plus `- nested` as the claim's
"text after the marker" requires. -/
theorem bullet_payload_counterexample :
    (pdfClassify "- - nested".toList).1 = Kind.bulletItem ∧
    (pdfClassify "- - nested".toList).2 = "  nested".toList ∧
    (pdfClassify "- - nested".toList).2 ≠ "  - nested".toList := by decide

/-- C7 (amended): a trimmed line starting with `- `, `* ` or `• ` is
classified bullet-item with payload two spaces plus the text with *all*
leading `-`, `*`, `•` and space characters stripped (so `- Hook: mystery
teaser` yields `  Hook: mystery teaser`); a trimmed line matching digits
then `.`/`)` then whitespace is classified numbered-item with payload two
spaces plus the trimmed text, numeric prefix preserved (`1. Competitive
snapshot` yields `  1. Competitive snapshot`). -/
theorem bullet_numbered_rule (line : List Char) :
    ((startsWith "- ".toList (pyStrip line) = true ∨
      startsWith "* ".toList (pyStrip line) = true ∨
      startsWith "• ".toList (pyStrip line) = true) →
      pdfClassify line =
        (Kind.bulletItem,
          ' ' :: ' ' :: pyStrip ((pyStrip line).dropWhile bulletMarkChar))) ∧
    (numberedMatch (pyStrip line) = true →
      pdfClassify line = (Kind.numberedItem, ' ' :: ' ' :: pyStrip line)) ∧
    pdfClassify "- Hook: mystery teaser".toList
      = (Kind.bulletItem, "  Hook: mystery teaser".toList) ∧
    pdfClassify "1. Competitive snapshot".toList
      = (Kind.numberedItem, "  1. Competitive snapshot".toList) :=
  ⟨pdfClassify_bullet, pdfClassify_numbered, by decide, by decide⟩

theorem bullet_numbered_rule_witness :
    pdfClassify "- Hook: mystery teaser".toList =
      (Kind.bulletItem,
        ' ' :: ' ' ::
          pyStrip ((pyStrip "- Hook: mystery teaser".toList).dropWhile bulletMarkChar)) ∧
    pdfClassify "1. Competitive snapshot".toList =
      (Kind.numberedItem, ' ' :: ' ' :: pyStrip "1. Competitive snapshot".toList) :=
  ⟨(bullet_numbered_rule "- Hook: mystery teaser".toList).1 (Or.inl (by decide)),
   (bullet_numbered_rule "1. Competitive snapshot".toList).2.1 (by decide)⟩

/-! ### Heading branch lemmas for both backends -/

lemma pdfClassify_h1 {line r : List Char} (hr : pyStrip line = '#' :: ' ' :: r) :
    pdfClassify line = (Kind.h1, pyStrip (r.dropWhile hashSpace)) := by
  unfold pdfClassify
  rw [hr]
  simp [startsWith, hashSpace]

lemma pdfClassify_h2 {line r : List Char}
    (hr : pyStrip line = '#' :: '#' :: ' ' :: r) :
    pdfClassify line = (Kind.h2, pyStrip (r.dropWhile hashSpace)) := by
  unfold pdfClassify
  rw [hr]
  simp [startsWith, hashSpace]

lemma pdfClassify_h3 {line r : List Char}
    (hr : pyStrip line = '#' :: '#' :: '#' :: ' ' :: r) :
    pdfClassify line = (Kind.h3, pyStrip (r.dropWhile hashSpace)) := by
  unfold pdfClassify
  rw [hr]
  simp [startsWith, hashSpace]

lemma inlineClassify_h1 {line r : List Char} (hr : pyStrip line = '#' :: ' ' :: r) :
    inlineClassify line = (Kind.h1, r) := by
  unfold inlineClassify
  rw [hr]
  simp [startsWith]

lemma inlineClassify_h2 {line r : List Char}
    (hr : pyStrip line = '#' :: '#' :: ' ' :: r) :
    inlineClassify line = (Kind.h2, r) := by
  unfold inlineClassify
  rw [hr]
  simp [startsWith]

lemma inlineClassify_h3 {line r : List Char}
    (hr : pyStrip line = '#' :: '#' :: '#' :: ' ' :: r) :
    inlineClassify line = (Kind.h3, r) := by
  unfold inlineClassify
  rw [hr]
  simp [startsWith]

/-- C2: a trimmed line starting `### ` is heading-3 (not heading-1), one
starting `## ` is heading-2, one starting `# ` is heading-1 — in both the
paginated and the inline backend.  The three space-terminated marker
prefixes are mutually exclusive, so this holds even though `generate_pdf`
textually tests `"# "` first. -/
theorem heading_priority (line : List Char) :
    (startsWith "### ".toList (pyStrip line) = true →
      (pdfClassify line).1 = Kind.h3 ∧ (inlineClassify line).1 = Kind.h3) ∧
    (startsWith "## ".toList (pyStrip line) = true →
      (pdfClassify line).1 = Kind.h2 ∧ (inlineClassify line).1 = Kind.h2) ∧
    (startsWith "# ".toList (pyStrip line) = true →
      (pdfClassify line).1 = Kind.h1 ∧ (inlineClassify line).1 = Kind.h1) := by
  refine ⟨fun h => ?_, fun h => ?_, fun h => ?_⟩
  · rcases (startsWith_iff _ _).mp h with ⟨r, hr⟩
    have hr' : pyStrip line = '#' :: '#' :: '#' :: ' ' :: r := hr
    rw [pdfClassify_h3 hr', inlineClassify_h3 hr']
    exact ⟨rfl, rfl⟩
  · rcases (startsWith_iff _ _).mp h with ⟨r, hr⟩
    have hr' : pyStrip line = '#' :: '#' :: ' ' :: r := hr
    rw [pdfClassify_h2 hr', inlineClassify_h2 hr']
    exact ⟨rfl, rfl⟩
  · rcases (startsWith_iff _ _).mp h with ⟨r, hr⟩
    have hr' : pyStrip line = '#' :: ' ' :: r := hr
    rw [pdfClassify_h1 hr', inlineClassify_h1 hr']
    exact ⟨rfl, rfl⟩

theorem heading_priority_witness :
    ((pdfClassify "### Title".toList).1 = Kind.h3 ∧
     (inlineClassify "### Title".toList).1 = Kind.h3) ∧
    ((pdfClassify "## Title".toList).1 = Kind.h2 ∧
     (inlineClassify "## Title".toList).1 = Kind.h2) ∧
    ((pdfClassify "# Title".toList).1 = Kind.h1 ∧
     (inlineClassify "# Title".toList).1 = Kind.h1) :=
  ⟨(heading_priority "### Title".toList).1 (by decide),
   (heading_priority "## Title".toList).2.1 (by decide),
   (heading_priority "# Title".toList).2.2 (by decide)⟩

/-! ### Strip-structure helpers and the blank branches -/

lemma pdfClassify_blank_iff (line : List Char) :
    (pdfClassify line).1 = Kind.blank ↔ pyStrip line = [] := by
  constructor
  · intro h
    unfold pdfClassify at h
    split_ifs at h with c1 <;> simp_all
  · intro h
    unfold pdfClassify
    simp [h]

lemma inlineClassify_blank_iff (line : List Char) :
    (inlineClassify line).1 = Kind.blank ↔ pyStrip line = [] := by
  constructor
  · intro h
    unfold inlineClassify at h
    split_ifs at h with c1 <;> simp_all
  · intro h
    unfold inlineClassify
    simp [h]

lemma dropWhile_head_false (p : Char → Bool) (l : List Char) :
    l.dropWhile p = [] ∨
    ∃ c t, l.dropWhile p = c :: t ∧ p c = false := by
  induction l with
  | nil => exact Or.inl rfl
  | cons a t ih =>
    by_cases ha : p a = true
    · simpa [List.dropWhile_cons, ha] using ih
    · simp only [Bool.not_eq_true] at ha
      exact Or.inr ⟨a, t, by simp [List.dropWhile_cons, ha], ha⟩

lemma dropWhile_eq_self_of_head {p : Char → Bool} {c : Char} {t : List Char}
    (h : p c = false) : (c :: t).dropWhile p = c :: t := by
  simp [List.dropWhile_cons, h]

lemma dropWhile_idem (p : Char → Bool) (l : List Char) :
    (l.dropWhile p).dropWhile p = l.dropWhile p := by
  rcases dropWhile_head_false p l with h | ⟨c, t, h, hc⟩
  · simp [h]
  · rw [h, dropWhile_eq_self_of_head hc]

lemma dropWhile_fix_of_append {p : Char → Bool} {x y : List Char}
    (h : (x ++ y).dropWhile p = x ++ y) : x.dropWhile p = x := by
  cases x with
  | nil => rfl
  | cons c t =>
    by_cases hc : p c = true
    · exfalso
      rw [List.cons_append, List.dropWhile_cons, if_pos hc] at h
      have h1 : ((t ++ y).dropWhile p).length ≤ (t ++ y).length :=
        (List.dropWhile_sublist _).length_le
      rw [h] at h1
      simp at h1
    · simp only [Bool.not_eq_true] at hc
      exact dropWhile_eq_self_of_head hc

/-- The trimmed form of a line is a fixed point of trailing-whitespace
removal (stated on the reverse). -/
lemma strip_reverse_fix (line : List Char) :
    (pyStrip line).reverse.dropWhile pyIsSpace = (pyStrip line).reverse := by
  unfold pyStrip dropTrail
  rw [List.reverse_reverse]
  exact dropWhile_idem _ _

/-- If the remainder after a heading marker starts with a character that is
neither `#` nor whitespace and is a fixed point of trailing-whitespace
removal, then the paginated payload computation returns it unchanged. -/
lemma heading_payload_fix {r : List Char} {c : Char} (hh : r.head? = some c)
    (hc1 : ¬ c = '#') (hc2 : pyIsSpace c = false)
    (htr : r.reverse.dropWhile pyIsSpace = r.reverse) :
    pyStrip (r.dropWhile hashSpace) = r := by
  cases r with
  | nil => simp at hh
  | cons d t =>
    have hd : d = c := by simpa using hh
    subst hd
    have hcs : ¬ (d = ' ') := fun he => by
      rw [he] at hc2
      exact absurd hc2 (by decide)
    have h1 : (d :: t).dropWhile hashSpace = d :: t :=
      dropWhile_eq_self_of_head (by simp [hashSpace, hc1, hcs])
    rw [h1]
    unfold pyStrip dropTrail
    rw [dropWhile_eq_self_of_head hc2, htr, List.reverse_reverse]

/-- C1 counterexample: on the line `**X**` the paginated backend takes the
bold-label branch (payload `X`) while the inline backend takes the
paragraph branch (payload `<strong>X</strong>`): the two backends assign
different kinds and different payloads to the same line. -/
theorem backend_disagreement_counterexample :
    (pdfClassify "**X**".toList).1 = Kind.boldLabel ∧
    (inlineClassify "**X**".toList).1 = Kind.paragraph ∧
    (pdfClassify "**X**".toList).1 ≠ (inlineClassify "**X**".toList).1 ∧
    (pdfClassify "**X**".toList).2 ≠ (inlineClassify "**X**".toList).2 := by
  decide

/-- C1 (amended): the two backends agree on the blank classification and on
heading lines: a line is blank for one backend iff it is for the other,
and a trimmed line starting `# `/`## `/`### ` whose remainder begins with a
character that is neither `#` nor whitespace is assigned the same heading
kind and the identical payload by both backends.  (They do not agree in
general: the inline backend has no bold-label or numbered branch, as the
counterexample shows.) -/
theorem backend_classification_agreement (line : List Char) :
    ((pdfClassify line).1 = Kind.blank ↔ (inlineClassify line).1 = Kind.blank) ∧
    (∀ c r, pyStrip line = '#' :: ' ' :: r → r.head? = some c →
      ¬ c = '#' → pyIsSpace c = false →
      pdfClassify line = (Kind.h1, r) ∧ inlineClassify line = (Kind.h1, r)) ∧
    (∀ c r, pyStrip line = '#' :: '#' :: ' ' :: r → r.head? = some c →
      ¬ c = '#' → pyIsSpace c = false →
      pdfClassify line = (Kind.h2, r) ∧ inlineClassify line = (Kind.h2, r)) ∧
    (∀ c r, pyStrip line = '#' :: '#' :: '#' :: ' ' :: r → r.head? = some c →
      ¬ c = '#' → pyIsSpace c = false →
      pdfClassify line = (Kind.h3, r) ∧ inlineClassify line = (Kind.h3, r)) := by
  refine ⟨(pdfClassify_blank_iff line).trans (inlineClassify_blank_iff line).symm,
    ?_, ?_, ?_⟩
  · intro c r hr hh hc1 hc2
    have htr : r.reverse.dropWhile pyIsSpace = r.reverse := by
      have h0 := strip_reverse_fix line
      rw [hr] at h0
      have h1 : ('#' :: ' ' :: r).reverse = r.reverse ++ [' ', '#'] := by simp
      rw [h1] at h0
      exact dropWhile_fix_of_append h0
    have hp := heading_payload_fix hh hc1 hc2 htr
    exact ⟨by rw [pdfClassify_h1 hr, hp], inlineClassify_h1 hr⟩
  · intro c r hr hh hc1 hc2
    have htr : r.reverse.dropWhile pyIsSpace = r.reverse := by
      have h0 := strip_reverse_fix line
      rw [hr] at h0
      have h1 : ('#' :: '#' :: ' ' :: r).reverse = r.reverse ++ [' ', '#', '#'] := by
        simp
      rw [h1] at h0
      exact dropWhile_fix_of_append h0
    have hp := heading_payload_fix hh hc1 hc2 htr
    exact ⟨by rw [pdfClassify_h2 hr, hp], inlineClassify_h2 hr⟩
  · intro c r hr hh hc1 hc2
    have htr : r.reverse.dropWhile pyIsSpace = r.reverse := by
      have h0 := strip_reverse_fix line
      rw [hr] at h0
      have h1 : ('#' :: '#' :: '#' :: ' ' :: r).reverse
          = r.reverse ++ [' ', '#', '#', '#'] := by simp
      rw [h1] at h0
      exact dropWhile_fix_of_append h0
    have hp := heading_payload_fix hh hc1 hc2 htr
    exact ⟨by rw [pdfClassify_h3 hr, hp], inlineClassify_h3 hr⟩

theorem backend_classification_agreement_witness :
    pdfClassify "# Alpha".toList = (Kind.h1, "Alpha".toList) ∧
    inlineClassify "# Alpha".toList = (Kind.h1, "Alpha".toList) :=
  (backend_classification_agreement "# Alpha".toList).2.1 'A' "Alpha".toList
    (by decide) (by decide) (by decide) (by decide)

/-! ### Lemmas about the two substitution passes -/

lemma boldSubF_nil (n : Nat) : boldSubF n [] = [] := by
  cases n <;> rfl

lemma italicSubAuxF_nil (n : Nat) (p : Option Char) : italicSubAuxF n p [] = [] := by
  cases n <;> rfl

lemma boldSubF_copy {u : List Char} (hu : '*' ∉ u) :
    ∀ n (v : List Char), boldSubF n (u ++ v) = u ++ boldSubF (n - u.length) v := by
  induction u with
  | nil => intro n v; simp
  | cons c u' ih =>
    intro n v
    have hc : ¬ (c = '*') := fun he => hu (he ▸ List.mem_cons_self c u')
    have hu' : '*' ∉ u' := fun hm => hu (List.mem_cons_of_mem _ hm)
    cases n with
    | zero => simp [boldSubF]
    | succ m =>
      have hstep : boldSubF (m + 1) (c :: (u' ++ v)) = c :: boldSubF m (u' ++ v) := by
        simp [boldSubF, hc]
      rw [List.cons_append, hstep, ih hu' m v, List.length_cons,
        Nat.succ_sub_succ, List.cons_append]

lemma boldSubF_id {v : List Char} (hv : '*' ∉ v) (n : Nat) : boldSubF n v = v := by
  have h := boldSubF_copy hv n []
  simpa [boldSubF_nil] using h

lemma findClose_append {x : List Char} (hx : '*' ∉ x) (y : List Char) :
    findClose (x ++ '*' :: '*' :: y) = some (x, y) := by
  induction x with
  | nil => simp [findClose, headIsStar]
  | cons c x' ih =>
    have hc : ¬ (c = '*') := fun he => hx (he ▸ List.mem_cons_self c x')
    have hx' : '*' ∉ x' := fun hm => hx (List.mem_cons_of_mem _ hm)
    simp [findClose, hc, ih hx']

lemma italicSubAuxF_copy {u : List Char} (hu : '*' ∉ u) :
    ∀ n (p : Option Char) (v : List Char), ∃ q,
      italicSubAuxF n p (u ++ v) = u ++ italicSubAuxF (n - u.length) q v := by
  induction u with
  | nil => intro n p v; exact ⟨p, by simp⟩
  | cons c u' ih =>
    intro n p v
    have hc : ¬ (c = '*') := fun he => hu (he ▸ List.mem_cons_self c u')
    have hu' : '*' ∉ u' := fun hm => hu (List.mem_cons_of_mem _ hm)
    cases n with
    | zero => exact ⟨p, by simp [italicSubAuxF]⟩
    | succ m =>
      rcases ih hu' m (some c) v with ⟨q, hq⟩
      refine ⟨q, ?_⟩
      have hstep : italicSubAuxF (m + 1) p (c :: (u' ++ v))
          = c :: italicSubAuxF m (some c) (u' ++ v) := by
        simp [italicSubAuxF, hc]
      rw [List.cons_append, hstep, hq, List.length_cons,
        Nat.succ_sub_succ, List.cons_append]

lemma italicSubAuxF_id {v : List Char} (hv : '*' ∉ v) (n : Nat) (p : Option Char) :
    italicSubAuxF n p v = v := by
  rcases italicSubAuxF_copy hv n p [] with ⟨q, hq⟩
  simpa [italicSubAuxF_nil] using hq

lemma italic_one_star (k : Nat) (q : Option Char) :
    italicSubAuxF k q ['*'] = ['*'] := by
  cases k with
  | zero => rfl
  | succ m =>
    by_cases hq : q = some '*'
    · simp [italicSubAuxF, hq, headIsStar, italicSubAuxF_nil]
    · simp [italicSubAuxF, hq, headIsStar, italicSubAuxF_nil]

lemma italic_two_star_end (k : Nat) (q : Option Char) :
    italicSubAuxF k q ['*', '*'] = ['*', '*'] := by
  cases k with
  | zero => rfl
  | succ m =>
    simp [italicSubAuxF, headIsStar, italic_one_star]

lemma boldSub_strong {a b c : List Char} (ha : '*' ∉ a) (hb : '*' ∉ b)
    (hc : '*' ∉ c) (hbne : b ≠ []) (hnb : '\n' ∉ b) :
    boldSub (a ++ '*' :: '*' :: (b ++ '*' :: '*' :: c))
      = a ++ strongOpen ++ b ++ strongClose ++ c := by
  obtain ⟨b0, b', rfl⟩ : ∃ b0 b', b = b0 :: b' := by
    cases b with
    | nil => exact absurd rfl hbne
    | cons x xs => exact ⟨x, xs, rfl⟩
  have hb' : '*' ∉ b' := fun hm => hb (List.mem_cons_of_mem _ hm)
  unfold boldSub
  rw [boldSubF_copy ha]
  have hk : (a ++ '*' :: '*' :: ((b0 :: b') ++ '*' :: '*' :: c)).length - a.length
      = b'.length + c.length + 4 + 1 := by
    simp [List.length_append]
    omega
  rw [hk]
  have hstep : boldSubF (b'.length + c.length + 4 + 1)
      ('*' :: '*' :: ((b0 :: b') ++ '*' :: '*' :: c))
      = strongOpen ++ (b0 :: b') ++ strongClose
          ++ boldSubF (b'.length + c.length + 4) c := by
    simp [boldSubF, headIsStar, findClose_append hb', hnb]
  rw [hstep, boldSubF_id hc]
  simp

/-- C5: in the paragraph branch the bold pass runs before the italic pass
(`paraSub` is the italic pass applied to the bold pass output), and a run
delimited by `**` is converted to strong-emphasis wrapping and never
corrupted into italic-emphasis markup: for a paragraph
`a ++ ** ++ b ++ ** ++ c` with no other asterisks, the result wraps `b` in
the strong tags and contains no italic markup; moreover the italic pattern
by itself never matches the asterisks of a `**` run (it requires asterisks
not adjacent to another `*`), leaving `** b **` unchanged. -/
theorem bold_before_italic (a b c : List Char)
    (ha : '*' ∉ a) (hb : '*' ∉ b) (hc : '*' ∉ c)
    (hbne : b ≠ []) (hnb : '\n' ∉ b) :
    paraSub (a ++ "**".toList ++ b ++ "**".toList ++ c)
      = a ++ strongOpen ++ b ++ strongClose ++ c ∧
    italicSub ("**".toList ++ b ++ "**".toList)
      = "**".toList ++ b ++ "**".toList := by
  constructor
  · have harg : a ++ "**".toList ++ b ++ "**".toList ++ c
        = a ++ '*' :: '*' :: (b ++ '*' :: '*' :: c) := by simp
    rw [paraSub, harg, boldSub_strong ha hb hc hbne hnb]
    apply italicSubAuxF_id
    intro hm
    simp only [List.mem_append] at hm
    rcases hm with ((((h | h) | h) | h) | h)
    · exact ha h
    · exact absurd h (by decide)
    · exact hb h
    · exact absurd h (by decide)
    · exact hc h
  · have harg : "**".toList ++ b ++ "**".toList
        = '*' :: '*' :: (b ++ ['*', '*']) := by simp
    rw [harg]
    unfold italicSub
    have hlen : ('*' :: '*' :: (b ++ ['*', '*'])).length
        = (b.length + 2) + 1 + 1 := by simp
    rw [hlen]
    have h1 : italicSubAuxF ((b.length + 2) + 1 + 1) none
        ('*' :: '*' :: (b ++ ['*', '*']))
        = '*' :: italicSubAuxF ((b.length + 2) + 1) (some '*')
            ('*' :: (b ++ ['*', '*'])) := by
      simp [italicSubAuxF, headIsStar]
    have h2 : italicSubAuxF ((b.length + 2) + 1) (some '*')
        ('*' :: (b ++ ['*', '*']))
        = '*' :: italicSubAuxF (b.length + 2) (some '*') (b ++ ['*', '*']) := by
      simp [italicSubAuxF]
    rcases italicSubAuxF_copy hb (b.length + 2) (some '*') ['*', '*'] with ⟨q, hq⟩
    rw [h1, h2, hq, italic_two_star_end]

theorem bold_before_italic_witness :
    ('*' ∉ "see ".toList ∧ '*' ∉ "bold".toList ∧ '*' ∉ " now".toList ∧
      "bold".toList ≠ ([] : List Char) ∧ '\n' ∉ "bold".toList) ∧
    paraSub ("see ".toList ++ "**".toList ++ "bold".toList
        ++ "**".toList ++ " now".toList)
      = "see ".toList ++ strongOpen ++ "bold".toList ++ strongClose ++ " now".toList :=
  ⟨⟨by decide, by decide, by decide, by decide, by decide⟩,
   (bold_before_italic "see ".toList "bold".toList " now".toList
      (by decide) (by decide) (by decide) (by decide) (by decide)).1⟩

/-! ### Safety of the inline renderer: every `<` starts a renderer tag -/

lemma startsWith_append_right {p l : List Char} (m : List Char)
    (h : startsWith p l = true) : startsWith p (l ++ m) = true := by
  rcases (startsWith_iff _ _).mp h with ⟨r, rfl⟩
  rw [List.append_assoc]
  exact startsWith_self_append p (r ++ m)

lemma safeB_cons_elim {c : Char} {t : List Char}
    (h : safeB (c :: t) = true) : safeB t = true := by
  simp only [safeB, Bool.and_eq_true] at h
  exact h.2

lemma safeB_cons_of_ne {c : Char} {t : List Char} (hc : ¬ c = '<')
    (h : safeB t = true) : safeB (c :: t) = true := by
  simp [safeB, hc, h]

lemma noLt_safeB {l : List Char} (h : '<' ∉ l) : safeB l = true := by
  induction l with
  | nil => rfl
  | cons c t ih =>
    have hc : ¬ (c = '<') := fun he => h (he ▸ List.mem_cons_self c t)
    exact safeB_cons_of_ne hc (ih (fun hm => h (List.mem_cons_of_mem _ hm)))

lemma safeB_append {a b : List Char} (ha : safeB a = true) (hb : safeB b = true) :
    safeB (a ++ b) = true := by
  induction a with
  | nil => exact hb
  | cons c t ih =>
    have ht : safeB t = true := safeB_cons_elim ha
    simp only [safeB, Bool.and_eq_true] at ha ⊢
    refine ⟨?_, ih ht⟩
    by_cases hc : c = '<'
    · simp only [hc, if_true] at ha ⊢
      rcases List.any_eq_true.mp ha.1 with ⟨tg, htg, hsw⟩
      refine List.any_eq_true.mpr ⟨tg, htg, ?_⟩
      exact startsWith_append_right b hsw
    · simp [hc]

lemma safeB_suffix {u v : List Char} (h : safeB (u ++ v) = true) :
    safeB v = true := by
  induction u with
  | nil => exact h
  | cons c t ih => exact ih (safeB_cons_elim h)

lemma safeB_drop {l : List Char} (n : Nat) (h : safeB l = true) :
    safeB (l.drop n) = true := by
  have : l = l.take n ++ l.drop n := (List.take_append_drop n l).symm
  rw [this] at h
  exact safeB_suffix h

lemma tags_no_star : ∀ tg ∈ TAGS, '*' ∉ tg := by decide

lemma startsWith_prune {tg : List Char} (htg : '*' ∉ tg) :
    ∀ {u : List Char} {w : List Char},
      startsWith tg (u ++ '*' :: w) = true → startsWith tg u = true := by
  induction tg with
  | nil => intro u w _; rfl
  | cons x tg' ih =>
    intro u w h
    cases u with
    | nil =>
      simp only [List.nil_append, startsWith, Bool.and_eq_true,
        decide_eq_true_eq] at h
      exact absurd (h.1 ▸ List.mem_cons_self x tg') (by simpa [h.1] using htg)
    | cons y u' =>
      simp only [List.cons_append, startsWith, Bool.and_eq_true,
        decide_eq_true_eq] at h ⊢
      have htg' : '*' ∉ tg' := fun hm => htg (List.mem_cons_of_mem _ hm)
      exact ⟨h.1, ih htg' h.2⟩

lemma safeB_of_append_star {u w : List Char}
    (h : safeB (u ++ '*' :: w) = true) : safeB u = true := by
  induction u with
  | nil => rfl
  | cons c t ih =>
    simp only [List.cons_append, safeB, Bool.and_eq_true] at h ⊢
    refine ⟨?_, ih h.2⟩
    by_cases hc : c = '<'
    · simp only [hc, if_true] at h ⊢
      rcases List.any_eq_true.mp h.1 with ⟨tg, htg, hsw⟩
      refine List.any_eq_true.mpr ⟨tg, htg, ?_⟩
      exact startsWith_prune (tags_no_star tg htg)
        (by simpa using hsw)
    · simp [hc]

lemma headIsStar_shape {t : List Char} (h : headIsStar t = true) :
    ∃ t', t = '*' :: t' := by
  cases t with
  | nil => simp [headIsStar] at h
  | cons d t' =>
    simp only [headIsStar, decide_eq_true_eq] at h
    exact ⟨t', by rw [h]⟩

lemma findClose_spec : ∀ {l a b : List Char},
    findClose l = some (a, b) → l = a ++ '*' :: '*' :: b := by
  intro l
  induction l with
  | nil => intro a b h; simp [findClose] at h
  | cons c t ih =>
    intro a b h
    by_cases hcond : (c = '*' && headIsStar t) = true
    · rw [findClose, if_pos hcond] at h
      injection h with h'
      injection h' with h1 h2
      rw [Bool.and_eq_true] at hcond
      rcases hcond with ⟨hc, hstar⟩
      have hc2 : c = '*' := by simpa using hc
      rcases headIsStar_shape hstar with ⟨t', rfl⟩
      subst hc2
      rw [← h1, ← h2]
      rfl
    · rw [findClose, if_neg hcond] at h
      rcases Option.map_eq_some'.mp h with ⟨q, hq, he⟩
      injection he with h1 h2
      rw [← h1, ← h2]
      rw [ih hq]
      rfl

lemma findCloseI_spec : ∀ {p : Char} {l a b : List Char},
    findCloseI p l = some (a, b) → l = a ++ '*' :: b := by
  intro p l
  induction l generalizing p with
  | nil => intro a b h; simp [findCloseI] at h
  | cons c t ih =>
    intro a b h
    by_cases hcond : (c = '*' && !(p = '*' || headIsStar t)) = true
    · rw [findCloseI, if_pos hcond] at h
      injection h with h'
      injection h' with h1 h2
      rw [Bool.and_eq_true] at hcond
      rcases hcond with ⟨hc, _⟩
      have hc2 : c = '*' := by simpa using hc
      subst hc2
      rw [← h1, ← h2]
      rfl
    · rw [findCloseI, if_neg hcond] at h
      rcases Option.map_eq_some'.mp h with ⟨q, hq, he⟩
      injection he with h1 h2
      rw [← h1, ← h2]
      rw [ih hq]
      rfl

lemma boldSubF_step_match {n : Nat} {d : Char} {t2 a b : List Char}
    (hfc : findClose t2 = some (a, b)) (hnl : '\n' ∉ d :: a) :
    boldSubF (n + 1) ('*' :: '*' :: d :: t2)
      = strongOpen ++ (d :: a) ++ strongClose ++ boldSubF n b := by
  simp [boldSubF, headIsStar, hfc, hnl]

lemma boldSubF_step_skipNl {n : Nat} {d : Char} {t2 a b : List Char}
    (hfc : findClose t2 = some (a, b)) (hnl : '\n' ∈ d :: a) :
    boldSubF (n + 1) ('*' :: '*' :: d :: t2)
      = '*' :: boldSubF n ('*' :: d :: t2) := by
  simp [boldSubF, headIsStar, hfc, hnl]

lemma boldSubF_step_none {n : Nat} {d : Char} {t2 : List Char}
    (hfc : findClose t2 = none) :
    boldSubF (n + 1) ('*' :: '*' :: d :: t2)
      = '*' :: boldSubF n ('*' :: d :: t2) := by
  simp [boldSubF, headIsStar, hfc]

lemma boldSubF_step_short (n : Nat) :
    boldSubF (n + 1) ['*', '*'] = '*' :: boldSubF n ['*'] := by
  simp [boldSubF, headIsStar]

lemma boldSubF_safe : ∀ (n : Nat) {l : List Char},
    '<' ∉ l → safeB (boldSubF n l) = true := by
  intro n
  induction n with
  | zero => intro l h; exact noLt_safeB h
  | succ m ih =>
    intro l h
    cases l with
    | nil => rfl
    | cons c t =>
      by_cases hcond : (c = '*' && headIsStar t) = true
      · rw [Bool.and_eq_true] at hcond
        obtain ⟨hc, hstar⟩ := hcond
        have hc2 : c = '*' := by simpa using hc
        subst hc2
        rcases headIsStar_shape hstar with ⟨t1, rfl⟩
        have h1 : '<' ∉ '*' :: t1 := fun hm => h (List.mem_cons_of_mem _ hm)
        cases t1 with
        | nil =>
          rw [boldSubF_step_short]
          exact safeB_cons_of_ne (by decide) (ih h1)
        | cons d t2 =>
          cases hfc : findClose t2 with
          | none =>
            rw [boldSubF_step_none hfc]
            exact safeB_cons_of_ne (by decide) (ih h1)
          | some q =>
            obtain ⟨a, b⟩ := q
            by_cases hnl : '\n' ∈ d :: a
            · rw [boldSubF_step_skipNl hfc hnl]
              exact safeB_cons_of_ne (by decide) (ih h1)
            · rw [boldSubF_step_match hfc hnl]
              have hspec := findClose_spec hfc
              subst hspec
              have hda : '<' ∉ d :: a := by
                intro hm
                apply h
                rcases List.mem_cons.mp hm with he | ha
                · rw [he]; simp
                · simp [ha]
              have hb : '<' ∉ b := by
                intro hm
                apply h
                simp [hm]
              refine safeB_append (safeB_append (safeB_append ?_ ?_) ?_) ?_
              · decide
              · exact noLt_safeB hda
              · decide
              · exact ih hb
      · have hcc : ¬ (c = '<') := fun he => h (he ▸ List.mem_cons_self c t)
        have hct : '<' ∉ t := fun hm => h (List.mem_cons_of_mem _ hm)
        have hstep : boldSubF (m + 1) (c :: t) = c :: boldSubF m t := by
          simp [boldSubF, hcond]
        rw [hstep]
        exact safeB_cons_of_ne hcc (ih hct)

lemma italicSubAuxF_step_inv {n : Nat} {p : Option Char} {t : List Char}
    (hcond : (p = some '*' || headIsStar t) = true) :
    italicSubAuxF (n + 1) p ('*' :: t) = '*' :: italicSubAuxF n (some '*') t := by
  simp [italicSubAuxF, hcond]

lemma italicSubAuxF_step_lone {n : Nat} {p : Option Char} (hp : ¬ p = some '*') :
    italicSubAuxF (n + 1) p ['*'] = ['*'] := by
  simp [italicSubAuxF, hp, headIsStar]

lemma italicSubAuxF_step_none {n : Nat} {p : Option Char} {d : Char} {t2 : List Char}
    (hp : ¬ p = some '*') (hstar : headIsStar (d :: t2) = false)
    (hfc : findCloseI d t2 = none) :
    italicSubAuxF (n + 1) p ('*' :: d :: t2)
      = '*' :: italicSubAuxF n (some '*') (d :: t2) := by
  simp [italicSubAuxF, hp, hstar, hfc]

lemma italicSubAuxF_step_skipNl {n : Nat} {p : Option Char} {d : Char}
    {t2 a b : List Char} (hp : ¬ p = some '*')
    (hstar : headIsStar (d :: t2) = false)
    (hfc : findCloseI d t2 = some (a, b)) (hnl : '\n' ∈ d :: a) :
    italicSubAuxF (n + 1) p ('*' :: d :: t2)
      = '*' :: italicSubAuxF n (some '*') (d :: t2) := by
  simp [italicSubAuxF, hp, hstar, hfc, hnl]

lemma italicSubAuxF_step_match {n : Nat} {p : Option Char} {d : Char}
    {t2 a b : List Char} (hp : ¬ p = some '*')
    (hstar : headIsStar (d :: t2) = false)
    (hfc : findCloseI d t2 = some (a, b)) (hnl : '\n' ∉ d :: a) :
    italicSubAuxF (n + 1) p ('*' :: d :: t2)
      = emOpen ++ (d :: a) ++ emClose ++ italicSubAuxF n (some '*') b := by
  simp [italicSubAuxF, hp, hstar, hfc, hnl]

lemma italicSubAuxF_step_plain {n : Nat} {p : Option Char} {c : Char}
    {t : List Char} (hc : ¬ c = '*') :
    italicSubAuxF (n + 1) p (c :: t) = c :: italicSubAuxF n (some c) t := by
  simp [italicSubAuxF, hc]

lemma italicSubAuxF_safe : ∀ (n : Nat) (p : Option Char) {l : List Char},
    safeB l = true → safeB (italicSubAuxF n p l) = true := by
  intro n
  induction n with
  | zero => intro p l h; exact h
  | succ m ih =>
    intro p l h
    cases l with
    | nil => rfl
    | cons c t =>
      have ht : safeB t = true := safeB_cons_elim h
      by_cases hc : c = '*'
      · subst hc
        by_cases hcond : (p = some '*' || headIsStar t) = true
        · rw [italicSubAuxF_step_inv hcond]
          exact safeB_cons_of_ne (by decide) (ih (some '*') ht)
        · have hp : ¬ p = some '*' := fun he => hcond (by simp [he])
          have hstar : headIsStar t = false := by
            cases hhs : headIsStar t with
            | false => rfl
            | true => exact absurd (by simp [hhs]) hcond
          cases t with
          | nil =>
            rw [italicSubAuxF_step_lone hp]
            decide
          | cons d t2 =>
            cases hfc : findCloseI d t2 with
            | none =>
              rw [italicSubAuxF_step_none hp hstar hfc]
              exact safeB_cons_of_ne (by decide) (ih (some '*') ht)
            | some q =>
              obtain ⟨a, b⟩ := q
              by_cases hnl : '\n' ∈ d :: a
              · rw [italicSubAuxF_step_skipNl hp hstar hfc hnl]
                exact safeB_cons_of_ne (by decide) (ih (some '*') ht)
              · rw [italicSubAuxF_step_match hp hstar hfc hnl]
                have hspec := findCloseI_spec hfc
                subst hspec
                have ht' : safeB ((d :: a) ++ '*' :: b) = true := by
                  simpa using ht
                have hda : safeB (d :: a) = true := safeB_of_append_star ht'
                have hb : safeB b = true :=
                  safeB_cons_elim (safeB_suffix ht')
                refine safeB_append (safeB_append (safeB_append ?_ ?_) ?_) ?_
                · decide
                · exact hda
                · decide
                · exact ih (some '*') hb
      · rw [italicSubAuxF_step_plain hc]
        have hrest := ih (some c) ht
        by_cases hlt : c = '<'
        · subst hlt
          simp only [safeB, Bool.and_eq_true, if_pos rfl] at h ⊢
          refine ⟨?_, hrest⟩
          rcases List.any_eq_true.mp h.1 with ⟨tg, htg, hsw⟩
          cases tg with
          | nil => exact List.any_eq_true.mpr ⟨[], htg, rfl⟩
          | cons x tg' =>
            simp only [startsWith, Bool.and_eq_true, decide_eq_true_eq] at hsw
            obtain ⟨hx, hsw'⟩ := hsw
            rcases (startsWith_iff _ _).mp hsw' with ⟨r, rfl⟩
            have hts : '*' ∉ tg' :=
              fun hm => tags_no_star _ htg (List.mem_cons_of_mem _ hm)
            rcases italicSubAuxF_copy hts m (some '<') r with ⟨q, hq⟩
            refine List.any_eq_true.mpr ⟨x :: tg', htg, ?_⟩
            rw [hq]
            simp only [startsWith, Bool.and_eq_true, decide_eq_true_eq]
            exact ⟨hx, startsWith_self_append _ _⟩
        · exact safeB_cons_of_ne hlt hrest

lemma noLt_escapeChar (c : Char) : '<' ∉ escapeChar c := by
  unfold escapeChar
  split_ifs with h1 h2 h3 h4 h5 <;> simp_all
  intro he
  exact h2 he.symm

lemma noLt_escape (l : List Char) : '<' ∉ escape l := by
  intro hm
  rcases List.mem_flatMap.mp hm with ⟨a, _, hc⟩
  exact noLt_escapeChar a hc

lemma pyStrip_subset {c : Char} {l : List Char} (h : c ∈ pyStrip l) : c ∈ l := by
  unfold pyStrip dropTrail at h
  rw [List.mem_reverse] at h
  have h1 := (List.dropWhile_sublist (l := (l.dropWhile pyIsSpace).reverse)
    (p := pyIsSpace)).subset h
  rw [List.mem_reverse] at h1
  exact (List.dropWhile_sublist (l := l) (p := pyIsSpace)).subset h1

lemma splitNl_ne_nil : ∀ l : List Char, splitNl l ≠ [] := by
  intro l
  induction l with
  | nil => simp [splitNl]
  | cons c t ih =>
    by_cases hc : c = '\n'
    · simp [splitNl, hc]
    · simp only [splitNl, hc, if_false]
      cases hst : splitNl t with
      | nil => exact absurd hst ih
      | cons h r => simp

lemma mem_splitNl {c : Char} : ∀ {l line : List Char},
    line ∈ splitNl l → c ∈ line → c ∈ l := by
  intro l
  induction l with
  | nil =>
    intro line hline hc
    simp [splitNl] at hline
    subst hline
    simp at hc
  | cons a t ih =>
    intro line hline hc
    by_cases ha : a = '\n'
    · rw [splitNl, if_pos ha] at hline
      rcases List.mem_cons.mp hline with he | hm
      · subst he; simp at hc
      · exact List.mem_cons_of_mem _ (ih hm hc)
    · rw [splitNl, if_neg ha] at hline
      cases hst : splitNl t with
      | nil => exact absurd hst (splitNl_ne_nil t)
      | cons x r =>
        rw [hst] at hline
        rcases List.mem_cons.mp hline with he | hm
        · subst he
          rcases List.mem_cons.mp hc with he2 | hm2
          · exact he2 ▸ List.mem_cons_self a t
          · exact List.mem_cons_of_mem _ (ih (hst ▸ List.mem_cons_self x r) hm2)
        · exact List.mem_cons_of_mem _ (ih (hst ▸ List.mem_cons_of_mem _ hm) hc)

lemma paraSub_safe {s : List Char} (h : '<' ∉ s) : safeB (paraSub s) = true := by
  unfold paraSub italicSub
  exact italicSubAuxF_safe _ none (boldSubF_safe _ h)

lemma lineHtml_safe {line : List Char} (h : '<' ∉ line) :
    safeB (lineHtml line) = true := by
  have hns : '<' ∉ pyStrip line := fun hm => h (pyStrip_subset hm)
  unfold lineHtml
  split_ifs with h1 h2 h3 h4 h5
  · decide
  · refine safeB_append (safeB_append ?_ ?_) ?_
    · decide
    · exact noLt_safeB (fun hm => hns (List.drop_subset _ _ hm))
    · decide
  · refine safeB_append (safeB_append ?_ ?_) ?_
    · decide
    · exact noLt_safeB (fun hm => hns (List.drop_subset _ _ hm))
    · decide
  · refine safeB_append (safeB_append ?_ ?_) ?_
    · decide
    · exact noLt_safeB (fun hm => hns (List.drop_subset _ _ hm))
    · decide
  · refine safeB_append (safeB_append ?_ ?_) ?_
    · decide
    · refine safeB_append ?_ ?_
      · decide
      · exact safeB_drop 2 (paraSub_safe hns)
    · decide
  · refine safeB_append (safeB_append ?_ ?_) ?_
    · decide
    · exact paraSub_safe hns
    · decide

lemma joinNl_safe : ∀ {xs : List (List Char)},
    (∀ x ∈ xs, safeB x = true) → safeB (joinNl xs) = true := by
  intro xs
  induction xs with
  | nil => intro _; rfl
  | cons x ys ih =>
    intro h
    cases ys with
    | nil => exact h x (List.mem_cons_self x [])
    | cons y ys' =>
      have hx : safeB x = true := h x (List.mem_cons_self _ _)
      have hrest : safeB (joinNl (y :: ys')) = true :=
        ih (fun z hz => h z (List.mem_cons_of_mem _ hz))
      exact safeB_append hx (safeB_cons_of_ne (by decide) hrest)

/-- C3: `_markdown_to_safe_html` escapes every markup-significant character
before any structural substitution, so for every input — in particular any
input containing a literal `<` — every `<` occurring in the output begins
one of the renderer's own markup tokens (h1/h2/h3, strong, em, p, br); no
input-originated character survives as an unescaped structural element. -/
theorem inline_escaping_total (t : List Char) :
    safeB (mdToSafeHtml t) = true := by
  unfold mdToSafeHtml
  apply joinNl_safe
  intro x hx
  rcases List.mem_map.mp hx with ⟨line, hline, rfl⟩
  apply lineHtml_safe
  intro hlt
  exact noLt_escape t (mem_splitNl hline hlt)

/-! ### `html.escape` commutes with line splitting and stripping -/

lemma escape_cons (c : Char) (t : List Char) :
    escape (c :: t) = escapeChar c ++ escape t := rfl

lemma escapeChar_cases (c : Char) :
    escapeChar c = [c] ∨ ∃ t', escapeChar c = '&' :: t' := by
  unfold escapeChar
  split_ifs with h1 h2 h3 h4 h5 <;> simp_all

lemma escapeChar_ne_nil (c : Char) : escapeChar c ≠ [] := by
  unfold escapeChar
  split_ifs <;> simp

lemma noNl_escapeChar {c : Char} (h : ¬ c = '\n') : '\n' ∉ escapeChar c := by
  unfold escapeChar
  split_ifs with h1 h2 h3 h4 h5 <;> simp_all
  exact fun he => h he.symm

lemma escape_eq_nil_iff {m : List Char} : escape m = [] ↔ m = [] := by
  constructor
  · intro h
    cases m with
    | nil => rfl
    | cons c t =>
      rw [escape_cons] at h
      exact absurd (List.append_eq_nil.mp h).1 (escapeChar_ne_nil c)
  · intro h
    rw [h]
    rfl

lemma escape_fixed {pat : List Char} (hpat : ∀ c ∈ pat, escapeChar c = [c]) :
    escape pat = pat := by
  induction pat with
  | nil => rfl
  | cons c t ih =>
    rw [escape_cons, hpat c (List.mem_cons_self _ _),
      ih (fun d hd => hpat d (List.mem_cons_of_mem _ hd))]
    rfl

lemma startsWith_escape_mp : ∀ (pat : List Char),
    (∀ c ∈ pat, escapeChar c = [c]) → ∀ (m : List Char),
    startsWith pat (escape m) = true → startsWith pat m = true := by
  intro pat
  induction pat with
  | nil => intro _ m _; rfl
  | cons x pat' ih =>
    intro hpat m h
    cases m with
    | nil => simp [startsWith] at h
    | cons c t =>
      rw [escape_cons] at h
      rcases escapeChar_cases c with he | ⟨t', he⟩
      · rw [he] at h
        simp only [List.cons_append, List.nil_append, startsWith,
          Bool.and_eq_true, decide_eq_true_eq] at h ⊢
        exact ⟨h.1,
          ih (fun d hd => hpat d (List.mem_cons_of_mem _ hd)) t h.2⟩
      · rw [he] at h
        simp only [List.cons_append, startsWith, Bool.and_eq_true,
          decide_eq_true_eq] at h
        have hx := hpat x (List.mem_cons_self _ _)
        rw [h.1] at hx
        exact absurd hx (by decide)

lemma startsWith_escape_eq (pat : List Char)
    (hpat : ∀ c ∈ pat, escapeChar c = [c]) (m : List Char) :
    startsWith pat (escape m) = startsWith pat m := by
  cases hsw : startsWith pat m with
  | true =>
    rcases (startsWith_iff _ _).mp hsw with ⟨r, rfl⟩
    have h2 : escape (pat ++ r) = pat ++ escape r := by
      show (pat ++ r).flatMap escapeChar = pat ++ escape r
      rw [List.flatMap_append,
        show pat.flatMap escapeChar = escape pat from rfl, escape_fixed hpat]
      rfl
    rw [h2]
    exact startsWith_self_append pat (escape r)
  | false =>
    cases hsw2 : startsWith pat (escape m) with
    | false => rfl
    | true => exact absurd (startsWith_escape_mp pat hpat m hsw2) (by simp [hsw])

lemma splitNl_append_noNl {x : List Char} (hx : '\n' ∉ x) :
    ∀ {y h : List Char} {r : List (List Char)},
    splitNl y = h :: r → splitNl (x ++ y) = (x ++ h) :: r := by
  induction x with
  | nil => intro y h r hy; simpa using hy
  | cons c x' ih =>
    intro y h r hy
    have hc : ¬ (c = '\n') := fun he => hx (he ▸ List.mem_cons_self c x')
    have hx' : '\n' ∉ x' := fun hm => hx (List.mem_cons_of_mem _ hm)
    rw [List.cons_append, splitNl, if_neg hc, ih hx' hy]
    rfl

lemma escape_splitNl (l : List Char) :
    splitNl (escape l) = (splitNl l).map escape := by
  induction l with
  | nil => rfl
  | cons c t ih =>
    by_cases hc : c = '\n'
    · subst hc
      have he : escape ('\n' :: t) = '\n' :: escape t := rfl
      rw [he, splitNl, if_pos rfl, ih, splitNl, if_pos rfl]
      rfl
    · cases hst : splitNl t with
      | nil => exact absurd hst (splitNl_ne_nil t)
      | cons h r =>
        have h1 : splitNl (escape t) = escape h :: (r.map escape) := by
          rw [ih, hst]
          rfl
        rw [escape_cons, splitNl_append_noNl (noNl_escapeChar hc) h1,
          splitNl, if_neg hc, hst]
        simp [escape_cons]

lemma space_escapeChar {c : Char} (h : pyIsSpace c = true) :
    escapeChar c = [c] := by
  unfold escapeChar
  split_ifs with h1 h2 h3 h4 h5 <;> simp_all <;>
    first
    | (exfalso; revert h; subst h1; decide)
    | (exfalso; revert h; subst h2; decide)
    | (exfalso; revert h; subst h3; decide)
    | (exfalso; revert h; subst h4; decide)
    | (exfalso; revert h; subst h5; decide)

lemma escapeChar_head_not_space {c : Char} (h : pyIsSpace c = false) :
    ∃ d t', escapeChar c = d :: t' ∧ pyIsSpace d = false := by
  unfold escapeChar
  split_ifs with h1 h2 h3 h4 h5
  · exact ⟨'&', "amp;".toList, by decide, by decide⟩
  · exact ⟨'&', "lt;".toList, by decide, by decide⟩
  · exact ⟨'&', "gt;".toList, by decide, by decide⟩
  · exact ⟨'&', "quot;".toList, by decide, by decide⟩
  · exact ⟨'&', "#x27;".toList, by decide, by decide⟩
  · exact ⟨c, [], rfl, h⟩

lemma escapeChar_concat_not_space {c : Char} (h : pyIsSpace c = false) :
    ∃ x d, escapeChar c = x ++ [d] ∧ pyIsSpace d = false := by
  unfold escapeChar
  split_ifs with h1 h2 h3 h4 h5
  · exact ⟨"&amp".toList, ';', by decide, by decide⟩
  · exact ⟨"&lt".toList, ';', by decide, by decide⟩
  · exact ⟨"&gt".toList, ';', by decide, by decide⟩
  · exact ⟨"&quot".toList, ';', by decide, by decide⟩
  · exact ⟨"&#x27".toList, ';', by decide, by decide⟩
  · exact ⟨[], c, rfl, h⟩

lemma dropLead_escape (l : List Char) :
    (escape l).dropWhile pyIsSpace = escape (l.dropWhile pyIsSpace) := by
  induction l with
  | nil => rfl
  | cons c t ih =>
    by_cases hc : pyIsSpace c = true
    · rw [escape_cons, space_escapeChar hc,
        show ([c] ++ escape t) = c :: escape t from rfl,
        List.dropWhile_cons, if_pos hc, ih, List.dropWhile_cons, if_pos hc]
    · have hc' : pyIsSpace c = false := by
        cases hval : pyIsSpace c with
        | false => rfl
        | true => exact absurd hval hc
      rcases escapeChar_head_not_space hc' with ⟨d, t', he, hd⟩
      rw [escape_cons, he,
        show ((d :: t') ++ escape t) = d :: (t' ++ escape t) from rfl,
        List.dropWhile_cons, if_neg (by simp [hd]),
        List.dropWhile_cons, if_neg (by simp [hc']), escape_cons, he]
      rfl

lemma dropTrail_concat_space {p : Char → Bool} {c : Char} (hc : p c = true)
    (x : List Char) : dropTrail p (x ++ [c]) = dropTrail p x := by
  unfold dropTrail
  rw [List.reverse_append,
    show (List.reverse [c] ++ x.reverse) = c :: x.reverse from rfl,
    List.dropWhile_cons, if_pos hc]

lemma dropTrail_concat_keep {p : Char → Bool} {d : Char} (hd : p d = false)
    (x : List Char) : dropTrail p (x ++ [d]) = x ++ [d] := by
  unfold dropTrail
  rw [List.reverse_append,
    show (List.reverse [d] ++ x.reverse) = d :: x.reverse from rfl,
    List.dropWhile_cons, if_neg (by simp [hd])]
  simp

lemma escape_concat (x : List Char) (c : Char) :
    escape (x ++ [c]) = escape x ++ escapeChar c := by
  show (x ++ [c]).flatMap escapeChar = _
  rw [List.flatMap_append]
  simp [escape]

lemma dropTrail_escape (l : List Char) :
    dropTrail pyIsSpace (escape l) = escape (dropTrail pyIsSpace l) := by
  induction l using List.reverseRecOn with
  | nil => rfl
  | append_singleton x c ih =>
    by_cases hc : pyIsSpace c = true
    · rw [escape_concat, space_escapeChar hc, dropTrail_concat_space hc,
        ih, dropTrail_concat_space hc]
    · have hc' : pyIsSpace c = false := by
        cases hval : pyIsSpace c with
        | false => rfl
        | true => exact absurd hval hc
      rcases escapeChar_concat_not_space hc' with ⟨y, d, he, hd⟩
      rw [escape_concat, he,
        show escape x ++ (y ++ [d]) = (escape x ++ y) ++ [d] from
          (List.append_assoc _ _ _).symm,
        dropTrail_concat_keep hd, dropTrail_concat_keep hc',
        escape_concat, he, List.append_assoc]

lemma pyStrip_escape (l : List Char) :
    pyStrip (escape l) = escape (pyStrip l) := by
  unfold pyStrip
  rw [dropLead_escape, dropTrail_escape]

lemma lineHtml_escape_shape (l : List Char) :
    (pyStrip l = [] → lineHtml (escape l) = brTag) ∧
    (startsWith "### ".toList (pyStrip l) = true →
      ∃ inner, lineHtml (escape l) = "<h3>".toList ++ inner ++ "</h3>".toList) ∧
    (startsWith "## ".toList (pyStrip l) = true →
      ∃ inner, lineHtml (escape l) = "<h2>".toList ++ inner ++ "</h2>".toList) ∧
    (startsWith "# ".toList (pyStrip l) = true →
      ∃ inner, lineHtml (escape l) = "<h1>".toList ++ inner ++ "</h1>".toList) ∧
    (¬ pyStrip l = [] →
      startsWith "### ".toList (pyStrip l) = false →
      startsWith "## ".toList (pyStrip l) = false →
      startsWith "# ".toList (pyStrip l) = false →
      ∃ inner, lineHtml (escape l) = pOpen ++ inner ++ pClose) := by
  have e1 : pyStrip (escape l) = escape (pyStrip l) := pyStrip_escape l
  have e2 := startsWith_escape_eq "### ".toList (by decide) (pyStrip l)
  have e3 := startsWith_escape_eq "## ".toList (by decide) (pyStrip l)
  have e4 := startsWith_escape_eq "# ".toList (by decide) (pyStrip l)
  unfold lineHtml
  simp only [e1, e2, e3, e4, escape_eq_nil_iff]
  refine ⟨?_, ?_, ?_, ?_, ?_⟩
  · intro h
    simp [h]
  · intro h
    rcases (startsWith_iff _ _).mp h with ⟨r, hr⟩
    have hne : ¬ pyStrip l = [] := by rw [hr]; simp
    rw [if_neg hne, if_pos h]
    exact ⟨_, rfl⟩
  · intro h
    rcases (startsWith_iff _ _).mp h with ⟨r, hr⟩
    have hne : ¬ pyStrip l = [] := by rw [hr]; simp
    have hf3 : startsWith "### ".toList (pyStrip l) = false := by
      rw [hr]
      simp [startsWith]
    rw [if_neg hne, if_neg (by simpa using hf3), if_pos h]
    exact ⟨_, rfl⟩
  · intro h
    rcases (startsWith_iff _ _).mp h with ⟨r, hr⟩
    have hne : ¬ pyStrip l = [] := by rw [hr]; simp
    have hf3 : startsWith "### ".toList (pyStrip l) = false := by
      rw [hr]
      simp [startsWith]
    have hf2 : startsWith "## ".toList (pyStrip l) = false := by
      rw [hr]
      simp [startsWith]
    rw [if_neg hne, if_neg (by simpa using hf3), if_neg (by simpa using hf2), if_pos h]
    exact ⟨_, rfl⟩
  · intro h0 hf3 hf2 hf1
    rw [if_neg h0, if_neg (by simpa using hf3), if_neg (by simpa using hf2),
      if_neg (by simpa using hf1)]
    exact ⟨_, rfl⟩

/-- C10: `_markdown_to_safe_html` emits exactly one markup element per
input line: the output is the newline-join of one emission per line of the
input (so the number of emitted elements equals the number of input lines),
where a whitespace-only line yields exactly `<br>`, a line whose trimmed
form starts `### `/`## `/`# ` yields exactly one h3/h2/h1 element, and
every other non-blank line yields exactly one paragraph element. -/
theorem one_element_per_line (t : List Char) :
    mdToSafeHtml t = joinNl ((splitNl t).map (fun l => lineHtml (escape l))) ∧
    ((splitNl t).map (fun l => lineHtml (escape l))).length
      = (splitNl t).length ∧
    ∀ l ∈ splitNl t,
      (pyStrip l = [] → lineHtml (escape l) = brTag) ∧
      (startsWith "### ".toList (pyStrip l) = true →
        ∃ inner, lineHtml (escape l) = "<h3>".toList ++ inner ++ "</h3>".toList) ∧
      (startsWith "## ".toList (pyStrip l) = true →
        ∃ inner, lineHtml (escape l) = "<h2>".toList ++ inner ++ "</h2>".toList) ∧
      (startsWith "# ".toList (pyStrip l) = true →
        ∃ inner, lineHtml (escape l) = "<h1>".toList ++ inner ++ "</h1>".toList) ∧
      (¬ pyStrip l = [] →
        startsWith "### ".toList (pyStrip l) = false →
        startsWith "## ".toList (pyStrip l) = false →
        startsWith "# ".toList (pyStrip l) = false →
        ∃ inner, lineHtml (escape l) = pOpen ++ inner ++ pClose) := by
  refine ⟨?_, List.length_map _ _, fun l _ => lineHtml_escape_shape l⟩
  unfold mdToSafeHtml
  rw [escape_splitNl, List.map_map]
  rfl

theorem one_element_per_line_witness :
    mdToSafeHtml "# T\n\n- a".toList
      = joinNl ((splitNl "# T\n\n- a".toList).map (fun l => lineHtml (escape l))) ∧
    ((splitNl "# T\n\n- a".toList).map (fun l => lineHtml (escape l))).length
      = (splitNl "# T\n\n- a".toList).length ∧
    (∃ inner, lineHtml (escape "# T".toList)
      = "<h1>".toList ++ inner ++ "</h1>".toList) ∧
    lineHtml (escape "".toList) = brTag :=
  ⟨(one_element_per_line "# T\n\n- a".toList).1,
   (one_element_per_line "# T\n\n- a".toList).2.1,
   ((one_element_per_line "# T\n\n- a".toList).2.2 "# T".toList
      (by decide)).2.2.2.1 (by decide),
   ((one_element_per_line "# T\n\n- a".toList).2.2 "".toList
      (by decide)).1 (by decide)⟩

/-! ### Latin-1 safety of the paginated renderer -/

lemma dropTrail_subset {c : Char} {p : Char → Bool} {x : List Char}
    (h : c ∈ dropTrail p x) : c ∈ x := by
  unfold dropTrail at h
  rw [List.mem_reverse] at h
  have h1 := (List.dropWhile_sublist (l := x.reverse) (p := p)).subset h
  rwa [List.mem_reverse] at h1

lemma pdfClassify_payload_subset {c : Char} {line : List Char}
    (h : c ∈ (pdfClassify line).2) : c ∈ line ∨ c = ' ' := by
  unfold pdfClassify at h
  split_ifs at h
  · simp at h
  · exact Or.inl (pyStrip_subset
      ((List.dropWhile_sublist _).subset (pyStrip_subset h)))
  · exact Or.inl (pyStrip_subset
      ((List.dropWhile_sublist _).subset (pyStrip_subset h)))
  · exact Or.inl (pyStrip_subset
      ((List.dropWhile_sublist _).subset (pyStrip_subset h)))
  · exact Or.inl (pyStrip_subset
      ((List.dropWhile_sublist _).subset (dropTrail_subset (pyStrip_subset h))))
  · rcases List.mem_cons.mp h with he | h2
    · exact Or.inr he
    · rcases List.mem_cons.mp h2 with he2 | h3
      · exact Or.inr he2
      · exact Or.inl (pyStrip_subset
          ((List.dropWhile_sublist _).subset (pyStrip_subset h3)))
  · rcases List.mem_cons.mp h with he | h2
    · exact Or.inr he
    · rcases List.mem_cons.mp h2 with he2 | h3
      · exact Or.inr he2
      · exact Or.inl (pyStrip_subset h3)
  · exact Or.inl (pyStrip_subset h)

/-- C8: `generate_pdf` never feeds an unrepresentable character to a layout
primitive: the sanitization pass is total, so every character of the title
string and of every body payload it hands to `cell`/`multi_cell` lies in
the latin-1 alphabet.  The page-layout primitives themselves are the
external `fpdf` library, modelled here only through the text they receive;
the renderer is a pure function of its two string inputs. -/
theorem pdf_render_latin1_total (strategy concept : List Char) :
    ∀ tx ∈ generatePdfTexts strategy concept, ∀ c ∈ tx, c.toNat ≤ 255 := by
  intro tx htx c hc
  simp only [generatePdfTexts, List.mem_cons, List.mem_filterMap] at htx
  rcases htx with he | ⟨line, hline, hf⟩
  · rw [he] at hc
    exact mem_latin1 hc
  · by_cases hb : (pdfClassify line).1 = Kind.blank
    · rw [if_pos hb] at hf
      exact absurd hf (by simp)
    · rw [if_neg hb] at hf
      injection hf with hf'
      rw [← hf'] at hc
      rcases pdfClassify_payload_subset hc with hin | hsp
      · exact sanitize_le255 (mem_splitNl hline hin)
      · rw [hsp]
        decide

set_option maxHeartbeats 1000000 in
theorem pdf_render_latin1_total_witness :
    ("Launch Strategy: e".toList
        ∈ generatePdfTexts "x".toList "é".toList) ∧
    ('L' ∈ "Launch Strategy: e".toList) ∧ 'L'.toNat ≤ 255 :=
  ⟨by decide, by decide,
    pdf_render_latin1_total "x".toList "é".toList
      "Launch Strategy: e".toList (by decide) 'L' (by decide)⟩
